import Mathlib

/-!
Verification of the selection/traversal core of `prime.py`
(ProjectContextCreator): the ignore-rule engine (`is_ignored`), the
extension filter (`os.path.splitext` + allowlist), and the tree packer
(`scan_and_pack` over `os.walk` with pre-order pruning), together with
the caller behaviour of `main` that the spec's claims mention.

The embedding targets a POSIX host (`os.sep = '/'`,
`os.path.normcase = id`), which is the canonical separator the code
itself normalises to at `prime.py:85`.  Filesystem paths enter
`is_ignored` only through `os.path.basename`, `os.path.relpath`
(separator-normalised) and `os.path.isdir`; those three observations
are carried explicitly in a `PathInfo` record.  The directory tree is
modelled as an inductive tree whose file leaves carry `Option String`
contents: `some c` is a file that decodes to `c`, `none` is a file
whose `open`/`read` raises (the `except` branch at `prime.py:150`).
-/

/-! ## Glob matching: Python's `fnmatch.fnmatch`

`fnmatch.fnmatch(name, pat)` normcases both arguments (identity on
POSIX) and matches `name` against the regex produced by
`fnmatch.translate(pat)`, anchored at both ends.  `translate` turns
`*` into `.*`, `?` into `.` (DOTALL, so every character matches), and
`[...]` into a character class: after the opening bracket a leading
`!` negates, a leading `]` is literal, the class runs to the next `]`,
and an unterminated `[` is a literal `[`.  Inside a class, `a-b`
denotes the codepoint range and other characters are literal.  Every
other pattern character is literal. -/

/-- One token of a translated glob pattern: a character-class atom. -/
inductive ClsItem where
  | single : Char → ClsItem
  | range : Char → Char → ClsItem
deriving DecidableEq

/-- One token of a translated glob pattern, mirroring
`fnmatch.translate`: `star` is `*` (`.*`), `any` is `?` (`.`),
`lit c` a literal character, `cls neg items` a character class
(negated when `neg`). -/
inductive GlobTok where
  | star : GlobTok
  | any : GlobTok
  | lit : Char → GlobTok
  | cls : Bool → List ClsItem → GlobTok
deriving DecidableEq

/-- Membership of a character in a class body (`a-b` compares
codepoints, exactly as the compiled regex does). -/
def inClassB (items : List ClsItem) (c : Char) : Bool :=
  items.any (fun it =>
    match it with
    | ClsItem.single d => c == d
    | ClsItem.range a b => decide (a ≤ c) && decide (c ≤ b))

/-- First occurrence of `c` in a list: `some (before, after)` when
found.  Used to locate the closing `]` of a character class, as
`fnmatch.translate`'s forward scan does. -/
def splitFirst (c : Char) : List Char → Option (List Char × List Char)
  | [] => none
  | x :: xs =>
    if x = c then some ([], xs)
    else (splitFirst c xs).map (fun pr => (x :: pr.1, pr.2))

/-- Given the characters after an opening `[`, find the class body and
the rest of the pattern after the closing `]`.  Mirrors the scan in
`fnmatch.translate`: a leading `!` and then a leading `]` are part of
the body, the body ends at the next `]`, and `none` (no closing `]`)
makes the `[` literal. -/
def classSplit (cs : List Char) : Option (List Char × List Char) :=
  match cs with
  | [] => none
  | c :: cs1 =>
    if c = '!' then
      match cs1 with
      | [] => none
      | d :: cs2 =>
        if d = ']' then (splitFirst ']' cs2).map (fun pr => (c :: d :: pr.1, pr.2))
        else (splitFirst ']' cs1).map (fun pr => (c :: pr.1, pr.2))
    else if c = ']' then (splitFirst ']' cs1).map (fun pr => (c :: pr.1, pr.2))
    else splitFirst ']' cs

/-- Parse a class body into atoms: `a-b` is a range, everything else a
literal; a `-` that cannot form a range stays literal, as in the
chunking loop of `fnmatch.translate`. -/
def parseItems : List Char → List ClsItem
  | a :: '-' :: b :: rest => ClsItem.range a b :: parseItems rest
  | a :: rest => ClsItem.single a :: parseItems rest
  | [] => []

/-- Split off the negation flag of a class body (`[!...]`). -/
def parseCls (content : List Char) : Bool × List ClsItem :=
  match content with
  | '!' :: rest => (true, parseItems rest)
  | _ => (false, parseItems content)

/-- Fuelled tokenizer for `fnmatch.translate`.  Fuel is structural so
the definition computes in the kernel; every recursive call consumes
at least one input character, so fuel `length + 1` (see `translate`)
never runs out. -/
def translateF : Nat → List Char → List GlobTok
  | 0, _ => []
  | _ + 1, [] => []
  | f + 1, c :: rest =>
    if c = '*' then GlobTok.star :: translateF f rest
    else if c = '?' then GlobTok.any :: translateF f rest
    else if c = '[' then
      match classSplit rest with
      | none => GlobTok.lit '[' :: translateF f rest
      | some (content, rest2) =>
        GlobTok.cls (parseCls content).1 (parseCls content).2 :: translateF f rest2
    else GlobTok.lit c :: translateF f rest

/-- `fnmatch.translate` on a pattern's characters. -/
def translatePat (cs : List Char) : List GlobTok :=
  translateF (cs.length + 1) cs

/-- Fuelled anchored glob matcher (the compiled regex's `match` +
`\Z`).  Each recursive call strictly decreases
`tokens.length + string.length`, so fuel `tokens.length +
string.length + 1` (see `gmatch`) never runs out; exhausted fuel
returns `false`. -/
def gmatchF : Nat → List GlobTok → List Char → Bool
  | 0, _, _ => false
  | _ + 1, [], s => s.isEmpty
  | f + 1, GlobTok.star :: ts, [] => gmatchF f ts []
  | f + 1, GlobTok.star :: ts, c :: s =>
    gmatchF f ts (c :: s) || gmatchF f (GlobTok.star :: ts) s
  | _ + 1, GlobTok.any :: _, [] => false
  | f + 1, GlobTok.any :: ts, _ :: s => gmatchF f ts s
  | _ + 1, GlobTok.lit _ :: _, [] => false
  | f + 1, GlobTok.lit c :: ts, d :: s => c == d && gmatchF f ts s
  | _ + 1, GlobTok.cls _ _ :: _, [] => false
  | f + 1, GlobTok.cls neg items :: ts, d :: s =>
    (inClassB items d != neg) && gmatchF f ts s

/-- Anchored match of a token list against a string's characters. -/
def gmatch (ts : List GlobTok) (s : List Char) : Bool :=
  gmatchF (ts.length + s.length + 1) ts s

/-- `fnmatch.fnmatch(s, pat)` on POSIX (where `os.path.normcase` is
the identity). -/
def fnmatch (s pat : String) : Bool :=
  gmatch (translatePat pat.toList) s.toList

/-- Python's `pattern.endswith('/')`. -/
def endswithSlash (s : String) : Bool :=
  match s.toList.getLast? with
  | some c => c == '/'
  | none => false

/-- Python's `'*' in pattern` (written over the character list so it
computes in the kernel). -/
def containsStar (pattern : String) : Bool :=
  pattern.toList.any (fun c => c == '*')

/-- Python's `str.lower()` for the ASCII range (the allowlisted
extensions are all ASCII), written over the character list so it
computes in the kernel. -/
def strToLower (s : String) : String :=
  String.mk (s.toList.map Char.toLower)

/-! ## Configuration constants (`prime.py:11-28`) -/

/-- `INCLUDED_EXTENSIONS`, `prime.py:11-15` (a Python set literal;
only membership is ever used, so the element order is immaterial). -/
def INCLUDED_EXTENSIONS : List String :=
  [".py", ".js", ".ts", ".tsx", ".html", ".css", ".json", ".md",
   ".sql", ".go", ".rs", ".java", ".cpp", ".c", ".h", ".hpp", ".ino",
   ".txt", ".yaml", ".yml", ".toml", ".xml", ".sh", ".bat", ".env"]

/-- `DEFAULT_IGNORE_DIRS`, `prime.py:18-25` (a Python set literal;
`is_ignored` uses membership and an order-insensitive disjunction over
its elements, so the element order is immaterial). -/
def DEFAULT_IGNORE_DIRS : List String :=
  [".git", "node_modules", "venv", ".venv", "pycache", "__pycache__",
   "dist", "build", ".idea", ".vscode", ".gemini",
   "package-lock.json", "yarn.lock", "pnpm-lock.yaml", "bun.lockb",
   "images", "assets", "public", "test-results", "playwright-report",
   "coverage", ".next", ".nuxt", "target",
   "logs.txt", "*.log", "*.audit.json"]

/-- `OUTPUT_FILENAME`, `prime.py:28`. -/
def OUTPUT_FILENAME : String := "codebase_context.md"

/-- `USER_PROMPT`, `prime.py:31-38`. -/
def USER_PROMPT : String :=
  "I have attached a file `codebase_context.md` which contains the full source code and directory structure of my project. \n\n**Instruction:**\n1.  **Analyze** the provided codebase to understand its architecture, tech stack, and key components.\n2.  **Act** as a Senior Software Architect and Coding Assistant for this specific project.\n3.  **Wait** for my next command. I will ask you to implement features, fix bugs, or explain code. When I do, provide concrete code examples and file modifications that fit the existing style and structure.\n\nPlease confirm you have ingested the context and are ready."

/-- `META_PROMPT`, `prime.py:40-47`. -/
def META_PROMPT : String :=
  "# Codebase Context\nI am providing my codebase context below in this flattened markdown file. \n\n## Project Structure\n(See file paths below)\n\n---\n"

/-! ## The ignore-rule engine (`is_ignored`, `prime.py:66-97`) -/

/-- The three facts `is_ignored` observes about its `path` argument:
`os.path.relpath(path, root_path)` with separators normalised to `/`
(`prime.py:83-85`), `os.path.basename(path)` (`prime.py:70`) and
`os.path.isdir(path)` (`prime.py:89`). -/
structure PathInfo where
  relPath : String
  name : String
  isDir : Bool

/-- The stage-2 loop of `is_ignored` (`prime.py:77-80`): for each
default entry containing `'*'`, `fnmatch` the basename against it,
returning at the first hit. -/
def wildcardLoop (name : String) : List String → Bool
  | [] => false
  | pattern :: rest =>
    if containsStar pattern then
      if fnmatch name pattern then true else wildcardLoop name rest
    else wildcardLoop name rest

/-- The stage-3 loop of `is_ignored` (`prime.py:87-95`): for each
loaded `.gitignore` pattern, a trailing-`/` pattern is tried against
`rel_path + '/'` and `name + '/'` only when the path is a directory,
and every pattern is tried against `rel_path` and `name`, returning at
the first hit. -/
def gitignoreLoop (p : PathInfo) : List String → Bool
  | [] => false
  | pattern :: rest =>
    if endswithSlash pattern && p.isDir
        && (fnmatch (p.relPath ++ "/") pattern || fnmatch (p.name ++ "/") pattern) then
      true
    else if fnmatch p.relPath pattern || fnmatch p.name pattern then
      true
    else gitignoreLoop p rest

/-- `is_ignored(path, root_path, gitignore_patterns)`,
`prime.py:66-97`: exact basename membership in the default set, then
the default wildcard loop, then the `.gitignore` loop. -/
def is_ignored (p : PathInfo) (gitignore_patterns : List String) : Bool :=
  if DEFAULT_IGNORE_DIRS.contains p.name then true
  else if wildcardLoop p.name DEFAULT_IGNORE_DIRS then true
  else gitignoreLoop p gitignore_patterns

/-! ## The tree packer (`scan_and_pack`, `prime.py:99-153`) -/

/-- A directory tree.  A `file` leaf's `Option String` is the result
of `open(...).read()` at `prime.py:139-140`: `some c` when the file
reads as the text `c`, `none` when the read raises and the `except`
branch at `prime.py:150-151` runs. -/
inductive FSNode where
  | file : String → Option String → FSNode
  | dir : String → List FSNode → FSNode

/-- `os.path.relpath(os.path.join(dirpath, name), root)` with the
separator normalised to `/`, expressed through the root-relative path
`relDir` of `dirpath` (`""` for the root itself). -/
def joinRel (relDir name : String) : String :=
  if relDir = "" then name else relDir ++ "/" ++ name

/-- The extension of `os.path.splitext(name)` for a basename: the
suffix from the last `.` on, except that a basename whose characters
before that `.` are all `.` has no extension (so `".env"` and
`"..env"` yield `""`). -/
def splitextExt (name : String) : String :=
  match splitFirst '.' name.toList.reverse with
  | none => ""
  | some (revSuf, revPre) =>
    if revPre.any (fun c => c ≠ '.') then String.mk ('.' :: revSuf.reverse)
    else ""

/-- The per-file body of the `for filename in filenames` loop,
`prime.py:121-151`: skip the reserved output name, skip ignored
files, skip disallowed (lower-cased) extensions, then read; a
successful read packs `(rel_path, content)`, a failed read packs
nothing. -/
def processFile (pats : List String) (relDir fn : String)
    (content : Option String) : Option (String × String) :=
  if fn = OUTPUT_FILENAME then none
  else if is_ignored (PathInfo.mk (joinRel relDir fn) fn false) pats then none
  else if INCLUDED_EXTENSIONS.contains (strToLower (splitextExt fn)) then
    match content with
    | some c => some (joinRel relDir fn, c)
    | none => none
  else none

/-- The packed entries contributed by the files of one directory
listing (the `filenames` of one `os.walk` triple), in listing
order. -/
def fileEntries (pats : List String) (relDir : String) : List FSNode → List (String × String)
  | [] => []
  | FSNode.file fn content :: rest =>
    (processFile pats relDir fn content).toList ++ fileEntries pats relDir rest
  | FSNode.dir _ _ :: rest => fileEntries pats relDir rest

/-- The packed entries contributed by descending into the
subdirectories of one listing: `os.walk` descends, in listing order,
into exactly the subdirectories the pruning loop at `prime.py:116-119`
kept, i.e. those not `is_ignored`; each kept subdirectory contributes
its own files and then its own recursive descent. -/
def walkDirs (pats : List String) (relDir : String) : List FSNode → List (String × String)
  | [] => []
  | FSNode.file _ _ :: rest => walkDirs pats relDir rest
  | FSNode.dir dn dch :: rest =>
    (if is_ignored (PathInfo.mk (joinRel relDir dn) dn true) pats then []
     else fileEntries pats (joinRel relDir dn) dch ++ walkDirs pats (joinRel relDir dn) dch)
      ++ walkDirs pats relDir rest

/-- All packed entries below a directory whose root-relative path is
`relDir` and whose listing is `cs`: the top-down `os.walk` order is
this directory's files first, then each kept subdirectory. -/
def walkChildren (pats : List String) (relDir : String) (cs : List FSNode) : List (String × String) :=
  fileEntries pats relDir cs ++ walkDirs pats relDir cs

/-- `scan_and_pack(root_path, output_file)` (`prime.py:99-153`)
abstracted over the loaded `.gitignore` patterns and the root's
listing.  The loop increments `file_count` by one and `total_size` by
`len(content)` exactly once per packed entry, so the returned pair is
the entry count and the summed content lengths. -/
def scan_and_pack (pats : List String) (root : List FSNode) : Nat × Nat :=
  let entries := walkChildren pats "" root
  (entries.length, (entries.map (fun e => e.2.length)).sum)

/-- The markdown block written per packed file at `prime.py:144`. -/
def renderEntry (e : String × String) : String :=
  "\n## File: `" ++ e.1 ++ "`\n\n```\n" ++ e.2 ++ "\n```\n"

/-- The bytes `scan_and_pack` writes to the output artifact: the
preamble (`prime.py:108`) followed by one rendered block per packed
file (`prime.py:144`). -/
def artifactText (pats : List String) (root : List FSNode) : String :=
  META_PROMPT ++ String.join ((walkChildren pats "" root).map renderEntry)

/-! ## The caller (`main`, `prime.py:169-230`) -/

/-- The outcome `main` reports: the fatal invalid-root precondition
(`prime.py:181-183`), the distinct zero-files message `"No matching
files found to pack."` (`prime.py:190-192`), or the success summary
(`prime.py:205-216`). -/
inductive RunOutcome where
  | invalidRoot : RunOutcome
  | nothingPacked : RunOutcome
  | success : Nat → Nat → RunOutcome
deriving DecidableEq

/-- `main`'s control flow around `scan_and_pack`: root validity check,
then the `file_count == 0` early return, else success with the
returned count and size. -/
def main_run (root_is_dir : Bool) (pats : List String) (root : List FSNode) : RunOutcome :=
  if root_is_dir = false then RunOutcome.invalidRoot
  else
    let r := scan_and_pack pats root
    if r.1 = 0 then RunOutcome.nothingPacked
    else RunOutcome.success r.1 r.2

/-- The side artifact `main` writes at `prime.py:201-203`: on the
success path (and only there) the file `prompt.txt` containing
`USER_PROMPT` is written to the working directory. -/
def main_side (o : RunOutcome) : Option (String × String) :=
  match o with
  | RunOutcome.success _ _ => some ("prompt.txt", USER_PROMPT)
  | _ => none

/-! ## Matcher lemmas

The key fact behind the trailing-`/` claims: a pattern whose last
character is `/` translates to a token list ending in `lit '/'`, and a
token list ending in `lit c` only matches strings ending in `c`. -/

theorem getLast?_cons_of_getLast? {α : Type} {l : List α} {c : α} (d : α)
    (h : l.getLast? = some c) : (d :: l).getLast? = some c := by
  cases l with
  | nil => simp at h
  | cons e l' => rw [List.getLast?_cons_cons]; exact h

theorem getLast?_append_cons {α : Type} (a : List α) (x : α) (b : List α) :
    (a ++ x :: b).getLast? = (x :: b).getLast? := by
  induction a with
  | nil => rfl
  | cons y a ih =>
    have hcons : (y :: a) ++ x :: b = y :: (a ++ x :: b) := rfl
    rw [hcons]
    cases hab : a ++ x :: b with
    | nil => exact absurd hab (by simp)
    | cons z zs => rw [List.getLast?_cons_cons, ← hab]; exact ih

theorem gmatchF_nil_cons (f : Nat) (x : Char) (xs : List Char) :
    gmatchF f [] (x :: xs) = false := by
  cases f <;> simp [gmatchF]

/-- A token list ending in a literal only matches strings ending in
that character (for every fuel value, since exhausted fuel yields
`false`). -/
theorem gmatchF_last_lit (f : Nat) : ∀ (ts : List GlobTok) (s : List Char) (c : Char),
    gmatchF f (ts ++ [GlobTok.lit c]) s = true → s.getLast? = some c := by
  induction f with
  | zero => intro ts s c h; simp [gmatchF] at h
  | succ f ih =>
    intro ts s c h
    cases ts with
    | nil =>
      cases s with
      | nil => simp [gmatchF] at h
      | cons d s' =>
        cases s' with
        | nil =>
          simp only [List.nil_append, gmatchF, Bool.and_eq_true, beq_iff_eq] at h
          simp [h.1]
        | cons e s'' =>
          simp only [List.nil_append, gmatchF, Bool.and_eq_true] at h
          rw [gmatchF_nil_cons] at h
          exact absurd h.2 (by simp)
    | cons t ts' =>
      cases t with
      | star =>
        cases s with
        | nil =>
          simp only [List.cons_append, gmatchF] at h
          exact ih ts' [] c h
        | cons d s' =>
          simp only [List.cons_append, gmatchF, Bool.or_eq_true] at h
          cases h with
          | inl h1 => exact ih ts' (d :: s') c h1
          | inr h2 =>
            have := ih (GlobTok.star :: ts') s' c (by simpa using h2)
            exact getLast?_cons_of_getLast? d this
      | any =>
        cases s with
        | nil => simp [gmatchF] at h
        | cons d s' =>
          simp only [List.cons_append, gmatchF] at h
          exact getLast?_cons_of_getLast? d (ih ts' s' c h)
      | lit b =>
        cases s with
        | nil => simp [gmatchF] at h
        | cons d s' =>
          simp only [List.cons_append, gmatchF, Bool.and_eq_true] at h
          exact getLast?_cons_of_getLast? d (ih ts' s' c h.2)
      | cls neg items =>
        cases s with
        | nil => simp [gmatchF] at h
        | cons d s' =>
          simp only [List.cons_append, gmatchF, Bool.and_eq_true] at h
          exact getLast?_cons_of_getLast? d (ih ts' s' c h.2)

theorem splitFirst_eq (c : Char) : ∀ (l a b : List Char),
    splitFirst c l = some (a, b) → l = a ++ c :: b := by
  intro l
  induction l with
  | nil => intro a b h; simp [splitFirst] at h
  | cons x xs ih =>
    intro a b h
    by_cases hx : x = c
    · simp only [splitFirst, if_pos hx] at h
      obtain ⟨ha, hb⟩ := Prod.mk.injEq .. ▸ Option.some.injEq .. ▸ h
      subst hx; cases ha; cases hb; rfl
    · simp only [splitFirst, if_neg hx] at h
      cases hsf : splitFirst c xs with
      | none => rw [hsf] at h; simp at h
      | some pr =>
        rw [hsf] at h
        simp only [Option.map_some', Option.some.injEq] at h
        have hxs := ih pr.1 pr.2 (by rw [hsf])
        cases h
        simpa using congrArg (fun t => x :: t) hxs

theorem classSplit_sub : ∀ (cs content rest2 : List Char),
    classSplit cs = some (content, rest2) → ∃ pre, cs = pre ++ ']' :: rest2 := by
  intro cs content rest2 h
  cases cs with
  | nil => simp [classSplit] at h
  | cons c cs1 =>
    by_cases hc : c = '!'
    · cases cs1 with
      | nil => simp [classSplit, hc] at h
      | cons d cs2 =>
        by_cases hd : d = ']'
        · simp only [classSplit, if_pos hc, if_pos hd] at h
          cases hsf : splitFirst ']' cs2 with
          | none => rw [hsf] at h; simp at h
          | some pr =>
            rw [hsf] at h
            simp only [Option.map_some', Option.some.injEq, Prod.mk.injEq] at h
            refine ⟨c :: d :: pr.1, ?_⟩
            have := splitFirst_eq ']' cs2 pr.1 pr.2 (by rw [hsf])
            rw [← h.2]
            simpa using congrArg (fun t => c :: d :: t) this
        · simp only [classSplit, if_pos hc, if_neg hd] at h
          cases hsf : splitFirst ']' (d :: cs2) with
          | none => rw [hsf] at h; simp at h
          | some pr =>
            rw [hsf] at h
            simp only [Option.map_some', Option.some.injEq, Prod.mk.injEq] at h
            refine ⟨c :: pr.1, ?_⟩
            have := splitFirst_eq ']' (d :: cs2) pr.1 pr.2 (by rw [hsf])
            rw [← h.2]
            simpa using congrArg (fun t => c :: t) this
    · by_cases hcb : c = ']'
      · simp only [classSplit, if_neg hc, if_pos hcb] at h
        cases hsf : splitFirst ']' cs1 with
        | none => rw [hsf] at h; simp at h
        | some pr =>
          rw [hsf] at h
          simp only [Option.map_some', Option.some.injEq, Prod.mk.injEq] at h
          refine ⟨c :: pr.1, ?_⟩
          have := splitFirst_eq ']' cs1 pr.1 pr.2 (by rw [hsf])
          rw [← h.2]
          simpa using congrArg (fun t => c :: t) this
      · simp only [classSplit, if_neg hc, if_neg hcb] at h
        exact ⟨content, splitFirst_eq ']' (c :: cs1) content rest2 h⟩

theorem translateF_nil (f : Nat) : translateF f [] = [] := by
  cases f <;> simp [translateF]

/-- A pattern whose last character is `/` tokenizes to a list ending
in `lit '/'` (given sufficient fuel): the trailing `/` can never be
swallowed by a character class, because a completed class ends at a
`]` strictly before it. -/
theorem translateF_last_slash (f : Nat) : ∀ (cs : List Char), cs.length < f →
    cs.getLast? = some '/' → ∃ ts, translateF f cs = ts ++ [GlobTok.lit '/'] := by
  induction f with
  | zero => intro cs hlen; omega
  | succ f ih =>
    intro cs hlen hlast
    cases cs with
    | nil => simp at hlast
    | cons c rest =>
      by_cases h1 : c = '*'
      · cases rest with
        | nil => subst h1; simp at hlast
        | cons r rs =>
          rw [List.getLast?_cons_cons] at hlast
          obtain ⟨ts, e⟩ := ih (r :: rs) (by simpa using Nat.lt_of_succ_lt_succ hlen) hlast
          exact ⟨GlobTok.star :: ts, by simp [translateF, h1, e]⟩
      · by_cases h2 : c = '?'
        · cases rest with
          | nil => subst h2; simp at hlast
          | cons r rs =>
            rw [List.getLast?_cons_cons] at hlast
            obtain ⟨ts, e⟩ := ih (r :: rs) (by simpa using Nat.lt_of_succ_lt_succ hlen) hlast
            exact ⟨GlobTok.any :: ts, by simp [translateF, h1, h2, e]⟩
        · by_cases h3 : c = '['
          · cases hcs : classSplit rest with
            | none =>
              cases rest with
              | nil => subst h3; simp at hlast
              | cons r rs =>
                rw [List.getLast?_cons_cons] at hlast
                obtain ⟨ts, e⟩ := ih (r :: rs) (by simpa using Nat.lt_of_succ_lt_succ hlen) hlast
                exact ⟨GlobTok.lit '[' :: ts, by simp [translateF, h1, h2, h3, hcs, e]⟩
            | some pr =>
              obtain ⟨content, rest2⟩ := pr
              obtain ⟨pre, hrest⟩ := classSplit_sub rest content rest2 hcs
              have hshift : c :: rest = (c :: pre) ++ ']' :: rest2 := by
                rw [hrest]; rfl
              rw [hshift, getLast?_append_cons] at hlast
              cases rest2 with
              | nil => simp at hlast
              | cons r2 rs2 =>
                rw [List.getLast?_cons_cons] at hlast
                have hlen2 : (r2 :: rs2).length < f := by
                  have : rest.length < f := by simpa using Nat.lt_of_succ_lt_succ hlen
                  have hr : (r2 :: rs2).length < rest.length := by
                    rw [hrest]; simp
                    omega
                  omega
                obtain ⟨ts, e⟩ := ih (r2 :: rs2) hlen2 hlast
                refine ⟨GlobTok.cls (parseCls content).1 (parseCls content).2 :: ts, ?_⟩
                simp [translateF, h1, h2, h3, hcs, e]
          · cases rest with
            | nil =>
              have hc : c = '/' := by simpa using hlast
              exact ⟨[], by simp [translateF, h1, h2, h3, translateF_nil, hc]⟩
            | cons r rs =>
              rw [List.getLast?_cons_cons] at hlast
              obtain ⟨ts, e⟩ := ih (r :: rs) (by simpa using Nat.lt_of_succ_lt_succ hlen) hlast
              exact ⟨GlobTok.lit c :: ts, by simp [translateF, h1, h2, h3, e]⟩

/-- Matching a trailing-`/` pattern forces a trailing `/` on the
matched string. -/
theorem fnmatch_ends_slash (s p : String) (hp : endswithSlash p = true)
    (hm : fnmatch s p = true) : endswithSlash s = true := by
  have hp' : p.toList.getLast? = some '/' := by
    unfold endswithSlash at hp
    cases hpl : p.toList.getLast? with
    | none => rw [hpl] at hp; simp at hp
    | some c =>
      rw [hpl] at hp
      simp only [beq_iff_eq] at hp
      rw [hp]
  obtain ⟨ts, e⟩ := translateF_last_slash (p.toList.length + 1) p.toList
    (Nat.lt_succ_self _) hp'
  unfold fnmatch gmatch at hm
  unfold translatePat at hm
  rw [e] at hm
  have := gmatchF_last_lit _ ts s.toList '/' hm
  unfold endswithSlash
  rw [this]
  rfl

/-! ## Stage decomposition of `is_ignored` -/

/-- Stage 1 of `is_ignored` (`prime.py:73-74`): exact basename
membership in the fixed default set. -/
def defaultExact (name : String) : Bool :=
  DEFAULT_IGNORE_DIRS.contains name

/-- Stage 2 of `is_ignored` (`prime.py:77-80`) as a disjunction:
some default entry containing `'*'` fnmatches the basename. -/
def defaultWildcard (name : String) : Bool :=
  DEFAULT_IGNORE_DIRS.any (fun pattern => containsStar pattern && fnmatch name pattern)

/-- Stage 3 of `is_ignored` (`prime.py:87-95`) as a disjunction: some
loaded pattern matches, via the directory-only trailing-`/` rule or
the standard rule, against the normalised relative path or the
basename. -/
def gitignoreAny (p : PathInfo) (pats : List String) : Bool :=
  pats.any (fun pattern =>
    (endswithSlash pattern && p.isDir
      && (fnmatch (p.relPath ++ "/") pattern || fnmatch (p.name ++ "/") pattern))
    || (fnmatch p.relPath pattern || fnmatch p.name pattern))

theorem wildcardLoop_eq_any (name : String) (l : List String) :
    wildcardLoop name l = l.any (fun pattern => containsStar pattern && fnmatch name pattern) := by
  induction l with
  | nil => rfl
  | cons pat rest ih =>
    simp only [wildcardLoop, List.any_cons]
    by_cases h1 : containsStar pat <;> by_cases h2 : fnmatch name pat <;>
      simp [h1, h2, ih]

theorem gitignoreLoop_eq_any (p : PathInfo) (l : List String) :
    gitignoreLoop p l = gitignoreAny p l := by
  induction l with
  | nil => rfl
  | cons pat rest ih =>
    simp only [gitignoreLoop, gitignoreAny, List.any_cons]
    by_cases h1 : endswithSlash pat && p.isDir
        && (fnmatch (p.relPath ++ "/") pat || fnmatch (p.name ++ "/") pat)
    · simp [h1]
    · by_cases h2 : fnmatch p.relPath pat || fnmatch p.name pat
      · simp [h1, h2, gitignoreAny]
      · simp [h1, h2, ih, gitignoreAny]

/-- C2: `is_ignored` is the first-match-wins disjunction of its three
stages — exact default-basename membership, then wildcard defaults
against the basename, then the loaded `.gitignore` patterns against
the separator-normalised relative path and the bare basename; an
earlier match makes the result `true` regardless of later stages, and
with no match the result is `false`. -/
theorem is_ignored_stage_order (p : PathInfo) (pats : List String) :
    is_ignored p pats
      = (defaultExact p.name || defaultWildcard p.name || gitignoreAny p pats) := by
  have hw : defaultWildcard p.name = wildcardLoop p.name DEFAULT_IGNORE_DIRS := by
    unfold defaultWildcard
    exact (wildcardLoop_eq_any p.name DEFAULT_IGNORE_DIRS).symm
  have hg : gitignoreAny p pats = gitignoreLoop p pats :=
    (gitignoreLoop_eq_any p pats).symm
  rw [hw, hg]
  unfold is_ignored defaultExact
  by_cases h1 : DEFAULT_IGNORE_DIRS.contains p.name <;>
    by_cases h2 : wildcardLoop p.name DEFAULT_IGNORE_DIRS <;>
      simp [h1, h2]

theorem gitignoreLoop_file_dirOnly (rel name : String) (pats : List String)
    (hp : ∀ p ∈ pats, endswithSlash p = true)
    (hr : endswithSlash rel = false)
    (hn : endswithSlash name = false) :
    gitignoreLoop (PathInfo.mk rel name false) pats = false := by
  induction pats with
  | nil => rfl
  | cons pat rest ih =>
    have hrel : fnmatch rel pat = false := by
      cases hb : fnmatch rel pat with
      | false => rfl
      | true =>
        have := fnmatch_ends_slash rel pat (hp pat (by simp)) hb
        rw [this] at hr; exact absurd hr (by simp)
    have hname : fnmatch name pat = false := by
      cases hb : fnmatch name pat with
      | false => rfl
      | true =>
        have := fnmatch_ends_slash name pat (hp pat (by simp)) hb
        rw [this] at hn; exact absurd hn (by simp)
    simp only [gitignoreLoop, hrel, hname]
    simp only [Bool.and_false, Bool.false_and, Bool.and_self, Bool.or_self,
      Bool.false_eq_true, if_false]
    exact ih (fun p hmem => hp p (by simp [hmem]))

/-- C1: a `.gitignore` pattern ending in `/` never causes a
non-directory to be ignored — for a file (so `os.path.isdir` is
`false`, and neither its relative path nor its basename carries a
trailing separator), `is_ignored` under any list of trailing-`/`
patterns coincides with `is_ignored` under no patterns at all. -/
theorem dir_only_patterns_spare_files (pats : List String) (rel name : String)
    (hp : ∀ p ∈ pats, endswithSlash p = true)
    (hr : endswithSlash rel = false)
    (hn : endswithSlash name = false) :
    is_ignored (PathInfo.mk rel name false) pats
      = is_ignored (PathInfo.mk rel name false) [] := by
  unfold is_ignored
  rw [gitignoreLoop_file_dirOnly rel name pats hp hr hn]
  rfl

theorem dir_only_patterns_spare_files_witness :
    (∀ p ∈ ["build/"], endswithSlash p = true)
    ∧ endswithSlash "src/build" = false
    ∧ endswithSlash "build" = false
    ∧ is_ignored (PathInfo.mk "src/build" "build" false) ["build/"]
        = is_ignored (PathInfo.mk "src/build" "build" false) [] :=
  ⟨by decide, by decide, by decide,
   dir_only_patterns_spare_files ["build/"] "src/build" "build"
     (by decide) (by decide) (by decide)⟩

/-! ## Traversal lemmas -/

theorem fileEntries_append (pats : List String) (relDir : String) (a b : List FSNode) :
    fileEntries pats relDir (a ++ b)
      = fileEntries pats relDir a ++ fileEntries pats relDir b := by
  induction a with
  | nil => rfl
  | cons n rest ih =>
    cases n with
    | file fn content => simp [fileEntries, ih]
    | dir dn dch => simp [fileEntries, ih]

theorem walkDirs_append (pats : List String) (relDir : String) (a b : List FSNode) :
    walkDirs pats relDir (a ++ b)
      = walkDirs pats relDir a ++ walkDirs pats relDir b := by
  induction a with
  | nil => simp [walkDirs]
  | cons n rest ih =>
    cases n with
    | file fn content => simp [walkDirs, ih]
    | dir dn dch => simp [walkDirs, ih]

/-- A file the per-file loop skips (for any reason) contributes
nothing to the packed entries, wherever it sits in a listing. -/
theorem walkChildren_skip_file (pats : List String) (relDir fn : String)
    (content : Option String) (pre post : List FSNode)
    (h : processFile pats relDir fn content = none) :
    walkChildren pats relDir (pre ++ FSNode.file fn content :: post)
      = walkChildren pats relDir (pre ++ post) := by
  unfold walkChildren
  rw [fileEntries_append, walkDirs_append, fileEntries_append, walkDirs_append]
  have hf : fileEntries pats relDir (FSNode.file fn content :: post)
      = fileEntries pats relDir post := by
    simp [fileEntries, h]
  have hd : walkDirs pats relDir (FSNode.file fn content :: post)
      = walkDirs pats relDir post := by
    simp [walkDirs]
  rw [hf, hd]

/-- A directory the pruning loop drops contributes nothing to the
packed entries, wherever it sits in a listing. -/
theorem walkChildren_skip_dir (pats : List String) (relDir dn : String)
    (dch : List FSNode) (pre post : List FSNode)
    (h : is_ignored (PathInfo.mk (joinRel relDir dn) dn true) pats = true) :
    walkChildren pats relDir (pre ++ FSNode.dir dn dch :: post)
      = walkChildren pats relDir (pre ++ post) := by
  unfold walkChildren
  rw [fileEntries_append, walkDirs_append, fileEntries_append, walkDirs_append]
  have hf : fileEntries pats relDir (FSNode.dir dn dch :: post)
      = fileEntries pats relDir post := by
    simp [fileEntries]
  have hd : walkDirs pats relDir (FSNode.dir dn dch :: post)
      = walkDirs pats relDir post := by
    simp [walkDirs, h]
  rw [hf, hd]

/-- C3: a directory whose basename matches the default ignore set
(exactly, or via a wildcard default entry) is pruned before descent:
the traversal's packed entries are the same as if the whole subtree
were absent, at any position and nesting depth, so nothing beneath it
is read, counted, or written. -/
theorem default_ignored_dir_pruned (pats : List String) (relDir dn : String)
    (dch pre post : List FSNode)
    (h : defaultExact dn = true ∨ defaultWildcard dn = true) :
    walkChildren pats relDir (pre ++ FSNode.dir dn dch :: post)
      = walkChildren pats relDir (pre ++ post) := by
  apply walkChildren_skip_dir
  unfold is_ignored
  cases h with
  | inl he =>
    unfold defaultExact at he
    rw [if_pos he]
  | inr hw =>
    have hwl : wildcardLoop dn DEFAULT_IGNORE_DIRS = true := by
      rw [wildcardLoop_eq_any]
      unfold defaultWildcard at hw
      exact hw
    by_cases hc : DEFAULT_IGNORE_DIRS.contains dn = true
    · rw [if_pos hc]
    · rw [if_neg hc, if_pos hwl]

theorem default_ignored_dir_pruned_witness :
    (defaultExact "node_modules" = true ∨ defaultWildcard "node_modules" = true)
    ∧ walkChildren [] ""
        ([] ++ FSNode.dir "node_modules" [FSNode.file "x.py" (some "x = 1")] :: [])
        = walkChildren [] "" ([] ++ []) :=
  ⟨Or.inl (by decide),
   default_ignored_dir_pruned [] "" "node_modules"
     [FSNode.file "x.py" (some "x = 1")] [] [] (Or.inl (by decide))⟩

/-- C4: a file named `codebase_context.md` is never packed — the
per-file loop skips the reserved output filename before any other
check, so the traversal's packed entries are the same as if the file
were absent, whatever its contents and wherever it sits. -/
theorem output_filename_never_packed (pats : List String) (relDir : String)
    (content : Option String) (pre post : List FSNode) :
    walkChildren pats relDir (pre ++ FSNode.file OUTPUT_FILENAME content :: post)
      = walkChildren pats relDir (pre ++ post) :=
  walkChildren_skip_file pats relDir OUTPUT_FILENAME content pre post
    (by simp [processFile])

theorem processFile_none_content (pats : List String) (relDir fn : String) :
    processFile pats relDir fn none = none := by
  unfold processFile
  split
  · rfl
  · split
    · rfl
    · split <;> rfl

/-- C6: a file whose read fails is skipped without aborting: the
packed entries, the file count, and the aggregate size are exactly
those of the tree without that file, so every other file — before or
after it in traversal order — is packed unchanged. -/
theorem unreadable_file_skipped (pats : List String) (relDir fn : String)
    (pre post : List FSNode) :
    walkChildren pats relDir (pre ++ FSNode.file fn none :: post)
      = walkChildren pats relDir (pre ++ post)
    ∧ scan_and_pack pats (pre ++ FSNode.file fn none :: post)
      = scan_and_pack pats (pre ++ post) := by
  constructor
  · exact walkChildren_skip_file pats relDir fn none pre post
      (processFile_none_content pats relDir fn)
  · unfold scan_and_pack
    rw [walkChildren_skip_file pats "" fn none pre post
      (processFile_none_content pats "" fn)]

/-- C8: regenerating over an unchanged tree is idempotent — the
packed-file sections are byte-identical whether or not the previous
run's artifact (a file named `codebase_context.md`, with any content)
is present in the root listing, and the scan is a pure function of
the tree, so two consecutive runs over an otherwise unchanged tree
serialize identical sections in identical order. -/
theorem repack_idempotent (pats : List String) (c : String) (pre post : List FSNode) :
    String.join ((walkChildren pats ""
        (pre ++ FSNode.file OUTPUT_FILENAME (some c) :: post)).map renderEntry)
      = String.join ((walkChildren pats "" (pre ++ post)).map renderEntry) := by
  rw [walkChildren_skip_file pats "" OUTPUT_FILENAME (some c) pre post
    (by simp [processFile])]

/-- C5: packing zero eligible files is reported as the distinct
`nothingPacked` outcome, never as success: the success summary and the
`prompt.txt` side artifact are skipped, and the output artifact holds
only the preamble, with no packed-file section. -/
theorem zero_files_distinct_signal (pats : List String) (root : List FSNode)
    (h : (scan_and_pack pats root).1 = 0) :
    main_run true pats root = RunOutcome.nothingPacked
    ∧ (∀ n s, main_run true pats root ≠ RunOutcome.success n s)
    ∧ main_side (main_run true pats root) = none
    ∧ artifactText pats root = META_PROMPT := by
  have hmain : main_run true pats root = RunOutcome.nothingPacked := by
    unfold main_run
    simp [h]
  refine ⟨hmain, ?_, ?_, ?_⟩
  · intro n s
    rw [hmain]
    intro hcontra
    cases hcontra
  · rw [hmain]
    rfl
  · have hent : walkChildren pats "" root = [] := by
      unfold scan_and_pack at h
      simpa using h
    unfold artifactText
    rw [hent]
    rfl

theorem zero_files_distinct_signal_witness :
    (scan_and_pack ["*.py"] [FSNode.file "only.py" (some "p")]).1 = 0
    ∧ (main_run true ["*.py"] [FSNode.file "only.py" (some "p")] = RunOutcome.nothingPacked
       ∧ (∀ n s, main_run true ["*.py"] [FSNode.file "only.py" (some "p")]
            ≠ RunOutcome.success n s)
       ∧ main_side (main_run true ["*.py"] [FSNode.file "only.py" (some "p")]) = none
       ∧ artifactText ["*.py"] [FSNode.file "only.py" (some "p")] = META_PROMPT) := by
  have hpf : processFile ["*.py"] "" "only.py" (some "p") = none := by decide
  have h0 : (scan_and_pack ["*.py"] [FSNode.file "only.py" (some "p")]).1 = 0 := by
    simp [scan_and_pack, walkChildren, fileEntries, walkDirs, hpf]
  exact ⟨h0, zero_files_distinct_signal ["*.py"] [FSNode.file "only.py" (some "p")] h0⟩

/-- C7: for a file not excluded by the reserved-name check or the
ignore rules, packing is decided exactly by whether its lower-cased
extension is in the allowlist — so extension matching is
case-insensitive, and a disallowed extension excludes the file even
with no ignore-rule match. -/
theorem extension_filter_case_insensitive (pats : List String) (relDir fn c : String)
    (h1 : is_ignored (PathInfo.mk (joinRel relDir fn) fn false) pats = false)
    (h2 : fn ≠ OUTPUT_FILENAME) :
    processFile pats relDir fn (some c)
      = if INCLUDED_EXTENSIONS.contains (strToLower (splitextExt fn))
        then some (joinRel relDir fn, c) else none := by
  unfold processFile
  rw [if_neg h2, if_neg (by simp [h1])]

theorem extension_filter_case_insensitive_witness :
    is_ignored (PathInfo.mk (joinRel "" "notes.TXT") "notes.TXT" false) [] = false
    ∧ "notes.TXT" ≠ OUTPUT_FILENAME
    ∧ processFile [] "" "notes.TXT" (some "hello")
        = (if INCLUDED_EXTENSIONS.contains (strToLower (splitextExt "notes.TXT"))
           then some (joinRel "" "notes.TXT", "hello") else none)
    ∧ processFile [] "" "notes.TXT" (some "hello") = some ("notes.TXT", "hello") :=
  ⟨by decide, by decide,
   extension_filter_case_insensitive [] "" "notes.TXT" "hello" (by decide) (by decide),
   by decide⟩

theorem splitFirst_append_of_not_mem (c : Char) (a b : List Char) (h : c ∉ a) :
    splitFirst c (a ++ c :: b) = some (a, b) := by
  induction a with
  | nil => simp [splitFirst]
  | cons x xs ih =>
    have hx : ¬(x = c) := by
      intro e
      exact h (e ▸ List.mem_cons_self x xs)
    have hxs := ih (fun hm => h (List.mem_cons_of_mem x hm))
    simp [splitFirst, hx, hxs]

/-- C9: a dotfile with no further dot (such as `.env`) has the empty
extension under `os.path.splitext`, and the empty string is not in
the allowlist, so `scan_and_pack` never packs it — even though the
string `.env` itself is an allowlisted extension, which makes a file
named `x.env` eligible. -/
theorem bare_dotfile_never_packed (fn : String) (rest : List Char)
    (h1 : fn.toList = '.' :: rest) (h2 : '.' ∉ rest) :
    splitextExt fn = ""
    ∧ ∀ (pats : List String) (relDir : String) (content : Option String),
        processFile pats relDir fn content = none := by
  have hsplit : splitextExt fn = "" := by
    unfold splitextExt
    rw [h1]
    have hrev : ('.' :: rest).reverse = rest.reverse ++ '.' :: [] := by
      simp
    rw [hrev, splitFirst_append_of_not_mem '.' rest.reverse []
      (by simpa using h2)]
    simp
  refine ⟨hsplit, ?_⟩
  intro pats relDir content
  unfold processFile
  rw [hsplit]
  split
  · rfl
  · split
    · rfl
    · rw [if_neg (by decide)]

theorem bare_dotfile_never_packed_witness :
    ".env".toList = '.' :: ['e', 'n', 'v']
    ∧ '.' ∉ ['e', 'n', 'v']
    ∧ (splitextExt ".env" = ""
       ∧ ∀ (pats : List String) (relDir : String) (content : Option String),
           processFile pats relDir ".env" content = none)
    ∧ ".env" ∈ INCLUDED_EXTENSIONS
    ∧ processFile [] "" "x.env" (some "k") = some ("x.env", "k") :=
  ⟨by decide, by decide,
   bare_dotfile_never_packed ".env" ['e', 'n', 'v'] (by decide) (by decide),
   by decide, by decide⟩

/-- C10: the side artifact `prompt.txt` written by `main` enjoys no
self-exclusion — only the name `codebase_context.md` is skipped by
name, `.txt` is allowlisted, and no default entry matches
`prompt.txt` — so whenever the loaded `.gitignore` patterns do not
match it, a traversal that encounters `prompt.txt` packs it into the
output artifact. -/
theorem prompt_txt_not_self_excluded (pats : List String) (relDir c : String)
    (pre post : List FSNode)
    (h : gitignoreLoop
        (PathInfo.mk (joinRel relDir "prompt.txt") "prompt.txt" false) pats = false) :
    processFile pats relDir "prompt.txt" (some c)
      = some (joinRel relDir "prompt.txt", c)
    ∧ (joinRel relDir "prompt.txt", c)
        ∈ walkChildren pats relDir (pre ++ FSNode.file "prompt.txt" (some c) :: post)
    ∧ (∀ n s, main_side (RunOutcome.success n s) = some ("prompt.txt", USER_PROMPT)) := by
  have hig : is_ignored
      (PathInfo.mk (joinRel relDir "prompt.txt") "prompt.txt" false) pats = false := by
    unfold is_ignored
    dsimp only
    rw [if_neg (by decide), if_neg (by decide)]
    exact h
  have hpf : processFile pats relDir "prompt.txt" (some c)
      = some (joinRel relDir "prompt.txt", c) := by
    unfold processFile
    rw [if_neg (by decide), if_neg (by simp [hig]), if_pos (by decide)]
  refine ⟨hpf, ?_, fun n s => rfl⟩
  unfold walkChildren
  rw [fileEntries_append]
  have hmid : fileEntries pats relDir (FSNode.file "prompt.txt" (some c) :: post)
      = (joinRel relDir "prompt.txt", c) :: fileEntries pats relDir post := by
    simp [fileEntries, hpf]
  rw [hmid]
  simp

theorem prompt_txt_not_self_excluded_witness :
    gitignoreLoop (PathInfo.mk (joinRel "" "prompt.txt") "prompt.txt" false) [] = false
    ∧ (processFile [] "" "prompt.txt" (some USER_PROMPT)
         = some (joinRel "" "prompt.txt", USER_PROMPT)
       ∧ (joinRel "" "prompt.txt", USER_PROMPT)
           ∈ walkChildren [] "" ([] ++ FSNode.file "prompt.txt" (some USER_PROMPT) :: [])
       ∧ (∀ n s, main_side (RunOutcome.success n s) = some ("prompt.txt", USER_PROMPT))) :=
  ⟨by decide, prompt_txt_not_self_excluded [] "" USER_PROMPT [] [] (by decide)⟩
